import Mathlib

/-!
Shallow embedding of the pricing and simulation engine of the
Option-Combo-Simulation repository, together with proofs of the frozen
specification claims.

Sources embedded:
* `src/bsm.js` — normal CDF approximation, BSM kernel, date utilities,
  `processLegData`, `computeLegPrice`, `computeSimulatedPrice`;
* `src/prob_charts.js` — the Monte Carlo worker (`_MC_WORKER_CODE`) and
  `_calibrateScale`;
* `src/chart.js` — the inline leg pricing of `PnLChart.draw`.

Modelling conventions: JavaScript numbers are modelled as real numbers
(exact arithmetic); date strings are modelled as integer day numbers
(days since 1970-01-01, which is a Thursday, so `getUTCDay` of day `d`
is `(d + 4) % 7`); absent (`undefined` / `null`) arguments are modelled
with `Option`.
-/

open scoped Classical

noncomputable section

namespace OptionSim

/-- Option right: the `leg.type` field, restricted to the data model's
`{call, put}` domain (`calculateOptionPrice` returns 0 on any other
string; that branch is dead under the data model). -/
inductive OptionType where
  | call : OptionType
  | put : OptionType
deriving DecidableEq

/-- Group view mode, `'active'` or `'trial'`. -/
inductive ViewMode where
  | active : ViewMode
  | trial : ViewMode
deriving DecidableEq

/-- Horner evaluation of the Abramowitz–Stegun 7.1.26 polynomial, exactly
as written in `normalCDF` (src/bsm.js line 15): the factor multiplying
`exp (-x*x)` in `1 - poly * exp (-x*x)`. -/
def asPoly (t : ℝ) : ℝ :=
  (((((1.061405429 * t - 1.453152027) * t) + 1.421413741) * t - 0.284496736) * t
      + 0.254829592) * t

/-- The rational substitution `t = 1/(1 + 0.3275911 x)` of A&S 7.1.26
(a named analysis helper for the term appearing inside `normalCDF`). -/
def tOf (x : ℝ) : ℝ := 1.0 / (1.0 + 0.3275911 * x)

/-- Normal CDF approximation, src/bsm.js lines 8–18.  The worker copy in
`_MC_WORKER_CODE` hard-codes the literal `1.4142135623730951`, which is the
IEEE-754 double value of `Math.sqrt(2.0)`; both are modelled as `Real.sqrt 2`. -/
def normalCDF (x : ℝ) : ℝ :=
  let sign : ℝ := if x < 0 then -1 else 1
  let x' := |x| / Real.sqrt 2
  let t := 1.0 / (1.0 + 0.3275911 * x')
  let y := 1.0 - asPoly t * Real.exp (-x' * x')
  0.5 * (1.0 + sign * y)

/-- src/bsm.js lines 21–23. -/
def calculateD1 (S K T r v : ℝ) : ℝ :=
  (Real.log (S / K) + (r + (v * v) / 2) * T) / (v * Real.sqrt T)

/-- src/bsm.js lines 26–28. -/
def calculateD2 (d1 v T : ℝ) : ℝ :=
  d1 - v * Real.sqrt T

/-- Intrinsic value of an option at spot `S`, the `T <= 0` branch of the
kernel (src/bsm.js lines 42–46). -/
def intrinsicValue (ty : OptionType) (S K : ℝ) : ℝ :=
  match ty with
  | .call => max 0 (S - K)
  | .put => max 0 (K - S)

/-- BSM kernel `calculateOptionPrice`, src/bsm.js lines 40–65, with the
volatility floor (`v <= 0 → 0.0001`) and spot floor (`S <= 0 → 0.0001`). -/
def calculateOptionPrice (ty : OptionType) (S K T r v : ℝ) : ℝ :=
  if T ≤ 0 then intrinsicValue ty S K
  else
    let v1 := if v ≤ 0 then 0.0001 else v
    let S1 := if S ≤ 0 then 0.0001 else S
    let d1 := calculateD1 S1 K T r v1
    let d2 := calculateD2 d1 v1 T
    match ty with
    | .call => S1 * normalCDF d1 - K * Real.exp (-r * T) * normalCDF d2
    | .put => K * Real.exp (-r * T) * normalCDF (-d2) - S1 * normalCDF (-d1)

/-- src/bsm.js lines 71–73. -/
def getMultiplier : ℤ := 100

/-- src/bsm.js lines 75–80: calendar-day difference, clamped at 0.  For
date-only UTC strings the millisecond rounding is exact, so the model is
integer subtraction. -/
def diffDays (d1 d2 : ℤ) : ℤ := max 0 (d2 - d1)

/-- `getUTCDay` of day number `d` (day 0 = 1970-01-01 is a Thursday). -/
def dayOfWeek (d : ℤ) : ℤ := (d + 4) % 7

/-- One day of the `calendarToTradingDays` loop counts iff it is neither
Sunday (0) nor Saturday (6). -/
def isTradingWeekday (d : ℤ) : Bool := !(dayOfWeek d = 0 ∨ dayOfWeek d = 6)

/-- The counting loop of `calendarToTradingDays`: starting at day `d`,
count trading weekdays among the next `n` consecutive days. -/
def tradingDayCount : ℤ → ℕ → ℕ
  | _, 0 => 0
  | d, n + 1 => (if isTradingWeekday d then 1 else 0) + tradingDayCount (d + 1) n

/-- src/bsm.js lines 88–103: weekdays in `[start, end)`; 0 when
`start > end` (then `(e - s).toNat = 0`, matching the early return and
the empty loop). -/
def calendarToTradingDays (s e : ℤ) : ℕ := tradingDayCount s (e - s).toNat

/-- Raw leg record as read from application state: `type`, `strike`,
`pos` (signed contracts), `expDate`, `iv`, `cost` (entered per-share
cost), and the optional live quote `currentPrice`. -/
structure RawLeg where
  type : OptionType
  strike : ℝ
  pos : ℤ
  expDate : ℤ
  iv : ℝ
  cost : ℝ
  currentPrice : Option ℝ

/-- JavaScript truthiness test `leg.currentPrice && leg.currentPrice > 0`
(absent quote is falsy). -/
def quoteIsPositive : Option ℝ → Prop
  | some q => 0 < q
  | none => False

/-- Output record of `processLegData` (src/bsm.js lines 164–176). -/
structure ProcessedLeg where
  type : OptionType
  strike : ℝ
  pos : ℤ
  isExpired : Bool
  calDTE : ℤ
  tradDTE : ℕ
  T : ℝ
  simIV : ℝ
  posMultiplier : ℝ
  costBasis : ℝ
  effectiveCostPerShare : ℝ

/-- Leg Normalizer `processLegData`, src/bsm.js lines 113–177.  The three
base-context parameters default to `null` in the source and are modelled
as `Option`s; the guard requires all of them, mirroring
`globalBaseDateStr && globalUnderlyingPrice !== null && globalInterestRate !== null`. -/
def processLegData (leg : RawLeg) (globalSimulatedDate : ℤ) (globalIvOffset : ℝ)
    (globalBaseDate : Option ℤ) (globalUnderlyingPrice : Option ℝ)
    (globalInterestRate : Option ℝ) (viewMode : ViewMode) : ProcessedLeg :=
  let isExpired : Bool := leg.expDate ≤ globalSimulatedDate
  let calDTE : ℤ := if isExpired then 0 else diffDays globalSimulatedDate leg.expDate
  let tradDTE : ℕ := if isExpired then 0 else calendarToTradingDays globalSimulatedDate leg.expDate
  let T : ℝ := (tradDTE : ℝ) / 252.0
  let simIV : ℝ := max 0.001 (leg.iv + globalIvOffset)
  let posMultiplier : ℝ := (leg.pos * getMultiplier : ℤ)
  let effectiveCostPerShare : ℝ :=
    if viewMode = ViewMode.trial ∨ leg.cost = 0 then
      if quoteIsPositive leg.currentPrice then leg.currentPrice.getD 0
      else
        match globalBaseDate, globalUnderlyingPrice, globalInterestRate with
        | some b, some u, some ir =>
          let baseTradDTE := calendarToTradingDays b leg.expDate
          let baseT : ℝ := (baseTradDTE : ℝ) / 252.0
          if baseT ≤ 0 then intrinsicValue leg.type u leg.strike
          else calculateOptionPrice leg.type u leg.strike baseT ir leg.iv
        | _, _, _ => leg.cost
    else leg.cost
  { type := leg.type
    strike := leg.strike
    pos := leg.pos
    isExpired := isExpired
    calDTE := calDTE
    tradDTE := tradDTE
    T := T
    simIV := simIV
    posMultiplier := posMultiplier
    costBasis := posMultiplier * effectiveCostPerShare
    effectiveCostPerShare := effectiveCostPerShare }

/-- src/bsm.js lines 183–200: intrinsic value when expired, BSM kernel
otherwise. -/
def computeLegPrice (p : ProcessedLeg) (underlyingPrice interestRate : ℝ) : ℝ :=
  if p.isExpired then intrinsicValue p.type underlyingPrice p.strike
  else calculateOptionPrice p.type underlyingPrice p.strike p.T interestRate p.simIV

/-- Simulated Price Resolver `computeSimulatedPrice`, src/bsm.js
lines 217–223, with the zero-drift bypass. -/
def computeSimulatedPrice (p : ProcessedLeg) (rawLeg : RawLeg)
    (underlyingPrice interestRate : ℝ) (viewMode : ViewMode)
    (simulatedDate baseDate : ℤ) (ivOffset : ℝ) : ℝ :=
  let isEvaluatingRightNow := simulatedDate = baseDate ∧ ivOffset = 0
  if viewMode = ViewMode.trial ∧ isEvaluatingRightNow ∧ quoteIsPositive rawLeg.currentPrice then
    rawLeg.currentPrice.getD 0
  else computeLegPrice p underlyingPrice interestRate

/-- Leg record posted to the Monte Carlo worker
(src/prob_charts.js lines 777–785): built from a processed leg as
`{type, K := strike, r := state.interestRate, T, v := simIV,
posMultiplier, costBasis}`. -/
structure WorkerLeg where
  type : OptionType
  K : ℝ
  r : ℝ
  T : ℝ
  v : ℝ
  posMultiplier : ℝ
  costBasis : ℝ

/-- The worker leg assembled from a processed leg in `updateProbCharts`. -/
def mkWorkerLeg (p : ProcessedLeg) (interestRate : ℝ) : WorkerLeg :=
  { type := p.type, K := p.strike, r := interestRate, T := p.T, v := p.simIV,
    posMultiplier := p.posMultiplier, costBasis := p.costBasis }

/-- Per-leg valuation inside the worker loop
(src/prob_charts.js lines 101–114 precompute and 141–155 per-path use).
The precomputed constants (`v_sqrt_T`, `inv_v_sqrt_T`, `d1_const`,
`K_exp_rT`) are pure functions of the leg, so they are inlined here. -/
def workerLegValue (leg : WorkerLeg) (finalPrice : ℝ) : ℝ :=
  if leg.T ≤ 0 then intrinsicValue leg.type finalPrice leg.K
  else
    let v := if leg.v ≤ 0 then 0.0001 else leg.v
    let v_sqrt_T := v * Real.sqrt leg.T
    let inv_v_sqrt_T := 1.0 / v_sqrt_T
    let d1_const := (-Real.log leg.K + (leg.r + 0.5 * v * v) * leg.T) / v_sqrt_T
    let K_exp_rT := leg.K * Real.exp (-leg.r * leg.T)
    let s_safe := if 0 < finalPrice then finalPrice else 0.0001
    let log_S := Real.log s_safe
    let d1 := log_S * inv_v_sqrt_T + d1_const
    let d2 := d1 - v_sqrt_T
    match leg.type with
    | .call => finalPrice * normalCDF d1 - K_exp_rT * normalCDF d2
    | .put => K_exp_rT * normalCDF (-d2) - finalPrice * normalCDF (-d1)

/-- Portfolio payoff of one path (src/prob_charts.js lines 137–157):
sum over legs of `posMultiplier * v_opt - costBasis`. -/
def pathPnL (legs : List WorkerLeg) (finalPrice : ℝ) : ℝ :=
  (legs.map fun leg => leg.posMultiplier * workerLegValue leg finalPrice - leg.costBasis).sum

/-- Worker loop state: the per-bin raw path counts and the running P&L
sum (`counts` and `exactPnLSum` in `_MC_WORKER_CODE`; the declared
`pathsInRange` variable is never incremented by the source and is
omitted). -/
structure MCState where
  counts : ℤ → ℕ
  exactPnLSum : ℝ

/-- One iteration of the worker's path loop
(src/prob_charts.js lines 120–160), taking the path's accumulated daily
log-return `logRet` as input (the Student-t draws are the abstracted
randomness). -/
def mcStep (currentPrice minS binWidth : ℝ) (bins : ℕ) (legs : List WorkerLeg)
    (st : MCState) (logRet : ℝ) : MCState :=
  let finalPrice := currentPrice * Real.exp logRet
  let binIdx : ℤ := ⌊(finalPrice - minS) / binWidth⌋
  let inRange := 0 ≤ binIdx ∧ binIdx < (bins : ℤ)
  { counts := if inRange then Function.update st.counts binIdx (st.counts binIdx + 1) else st.counts
    exactPnLSum := st.exactPnLSum + (if legs = [] then 0 else pathPnL legs finalPrice) }

/-- The full worker run over a fixed sequence of drawn per-path
log-returns (`nPaths = draws.length`). -/
def mcRun (draws : List ℝ) (currentPrice minS maxS : ℝ) (bins : ℕ)
    (legs : List WorkerLeg) : MCState :=
  let binWidth := (maxS - minS) / (bins : ℝ)
  draws.foldl (mcStep currentPrice minS binWidth bins legs) ⟨fun _ => 0, 0⟩

/-- `exactExpectedPnL = nPaths > 0 ? exactPnLSum / nPaths : 0`
(src/prob_charts.js line 162). -/
def exactExpectedPnL (draws : List ℝ) (currentPrice minS maxS : ℝ) (bins : ℕ)
    (legs : List WorkerLeg) : ℝ :=
  if 0 < draws.length then
    (mcRun draws currentPrice minS maxS bins legs).exactPnLSum / (draws.length : ℝ)
  else 0

/-- `tDensity[i] = counts[i] / (nPaths * binWidth)`
(src/prob_charts.js lines 165–167). -/
def tDensity (draws : List ℝ) (currentPrice minS maxS : ℝ) (bins : ℕ)
    (legs : List WorkerLeg) (i : ℤ) : ℝ :=
  let binWidth := (maxS - minS) / (bins : ℝ)
  ((mcRun draws currentPrice minS maxS bins legs).counts i : ℝ) / ((draws.length : ℝ) * binWidth)

/-- Distribution Calibrator `_calibrateScale`,
src/prob_charts.js lines 198–202. -/
def calibrateScale (df portfolioIV : ℝ) : ℝ :=
  let targetDailyVol := portfolioIV / Real.sqrt 365
  if df ≤ 2.001 then targetDailyVol
  else targetDailyVol / Real.sqrt (df / (df - 2))

/-- The per-leg record precomputed inline by the P&L curve renderer
`PnLChart.draw`, src/chart.js lines 143–162. -/
structure ChartLeg where
  type : OptionType
  pos : ℤ
  strike : ℝ
  simTradDTE : ℤ
  simCalDTE : ℤ
  simIV : ℝ
  timeToMaturityYears : ℝ
  costBasis : ℝ

/-- The renderer's own leg pre-processing (src/chart.js lines 143–162):
trading days are approximated as `Math.round(simCalDTE * 252 / 365)`
(JavaScript `Math.round x = ⌊x + 1/2⌋`) and the cost basis is always
`pos * 100 * leg.cost`. -/
def chartProcessLeg (leg : RawLeg) (simulatedDate : ℤ) (ivOffset : ℝ) : ChartLeg :=
  let isExpired : Bool := leg.expDate ≤ simulatedDate
  let simCalDTE : ℤ := if isExpired then 0 else diffDays simulatedDate leg.expDate
  let simTradDTE : ℤ := max 0 ⌊(simCalDTE : ℝ) * 252 / 365 + 1 / 2⌋
  let simIV : ℝ := max 0.001 (leg.iv + ivOffset)
  let timeToMaturityYears : ℝ := (simTradDTE : ℝ) / 252.0
  let costBasis : ℝ := (leg.pos : ℝ) * 100 * leg.cost
  { type := leg.type, pos := leg.pos, strike := leg.strike,
    simTradDTE := simTradDTE, simCalDTE := simCalDTE, simIV := simIV,
    timeToMaturityYears := timeToMaturityYears, costBasis := costBasis }

/-- The renderer's inline per-share price at spot `currentS`
(src/chart.js lines 174–180): BSM when `simCalDTE > 0`, else intrinsic. -/
def chartLegPricePerShare (l : ChartLeg) (currentS interestRate : ℝ) : ℝ :=
  if 0 < l.simCalDTE then
    calculateOptionPrice l.type currentS l.strike l.timeToMaturityYears interestRate l.simIV
  else intrinsicValue l.type currentS l.strike

/-! ## Claim C5 — zero-drift bypass of the Simulated Price Resolver -/

/-- C5: whenever `viewMode = trial`, `simulatedDate = baseDate`,
`ivOffset = 0` and the raw leg's live quote is positive,
`computeSimulatedPrice` returns the live quote verbatim, for every
underlying price, interest rate and processed leg; in every other case it
returns the model-state value `computeLegPrice` (intrinsic if expired,
else the BSM kernel price). -/
theorem computeSimulatedPrice_bypass_spec (p : ProcessedLeg) (rawLeg : RawLeg)
    (U r : ℝ) (vm : ViewMode) (simD bD : ℤ) (ivOff : ℝ) :
    (∀ q : ℝ, vm = ViewMode.trial → simD = bD → ivOff = 0 →
      rawLeg.currentPrice = some q → 0 < q →
      computeSimulatedPrice p rawLeg U r vm simD bD ivOff = q) ∧
    (¬ (vm = ViewMode.trial ∧ (simD = bD ∧ ivOff = 0) ∧ quoteIsPositive rawLeg.currentPrice) →
      computeSimulatedPrice p rawLeg U r vm simD bD ivOff = computeLegPrice p U r) := by
  constructor
  · rintro q hvm hsd hoff hq hqpos
    subst hvm hsd hoff
    unfold computeSimulatedPrice
    rw [if_pos ⟨rfl, ⟨rfl, rfl⟩, by rw [hq]; exact hqpos⟩, hq]
    rfl
  · intro h
    unfold computeSimulatedPrice
    exact if_neg h

/-- Witness for C5: a concrete trial-mode leg quoted at 4.50 resolves to
exactly 4.50. -/
theorem computeSimulatedPrice_bypass_spec_witness :
    computeSimulatedPrice
      (processLegData ⟨.call, 100, 1, 30, 0.2, 0, some 4.5⟩ 0 0 none none none .trial)
      ⟨.call, 100, 1, 30, 0.2, 0, some 4.5⟩ 100 0.03 .trial 0 0 0 = 4.5 :=
  (computeSimulatedPrice_bypass_spec _ _ 100 0.03 .trial 0 0 0).1 4.5 rfl rfl rfl rfl
    (by norm_num)

/-! ## Claim C8 — Leg Normalizer invariants -/

/-- C8: for every leg and valuation context, the normalized leg has
`calDTE = tradDTE = 0` and `T = 0` once `expiry ≤ simulatedDate`, and
unconditionally `calDTE ≥ 0`, `tradDTE ≥ 0`, `T ≥ 0` and
`simIV ≥ 0.001`. -/
theorem processLegData_invariants (leg : RawLeg) (simD : ℤ) (ivOff : ℝ)
    (b : Option ℤ) (u ir : Option ℝ) (vm : ViewMode) :
    (leg.expDate ≤ simD →
      (processLegData leg simD ivOff b u ir vm).calDTE = 0 ∧
      (processLegData leg simD ivOff b u ir vm).tradDTE = 0 ∧
      (processLegData leg simD ivOff b u ir vm).T = 0) ∧
    0 ≤ (processLegData leg simD ivOff b u ir vm).calDTE ∧
    (0 : ℝ) ≤ (processLegData leg simD ivOff b u ir vm).tradDTE ∧
    (0 : ℝ) ≤ (processLegData leg simD ivOff b u ir vm).T ∧
    0.001 ≤ (processLegData leg simD ivOff b u ir vm).simIV := by
  refine ⟨fun h => ?_, ?_, ?_, ?_, ?_⟩
  · simp [processLegData, h]
  · simp only [processLegData]
    split
    · exact le_refl 0
    · exact le_max_left 0 _
  · simp only [processLegData]
    split <;> positivity
  · simp only [processLegData]
    split <;> positivity
  · simp only [processLegData]
    exact le_max_left _ _

/-- Witness for C8 at a concrete expired leg (expiry day 3, simulated
day 5). -/
theorem processLegData_invariants_witness :
    (processLegData ⟨.put, 50, -2, 3, 0.4, 1.25, none⟩ 5 0.1 none none none .active).calDTE = 0 ∧
    (processLegData ⟨.put, 50, -2, 3, 0.4, 1.25, none⟩ 5 0.1 none none none .active).tradDTE = 0 ∧
    (processLegData ⟨.put, 50, -2, 3, 0.4, 1.25, none⟩ 5 0.1 none none none .active).T = 0 :=
  (processLegData_invariants ⟨.put, 50, -2, 3, 0.4, 1.25, none⟩ 5 0.1 none none none
    .active).1 (by decide)

/-! ## Claim C9 — Distribution Calibrator -/

/-- C9 counterexample: at `df = 2.0005` (which is `> 2`) and target
annualised vol `0.2`, the calibrator takes the fallback branch and
returns `0.2 / √365`, not the claimed
`(0.2 / √365) / √(df / (df - 2))`: the source's fallback threshold is
`df ≤ 2.001`, not `df ≤ 2`. -/
theorem calibrateScale_threshold_counterexample :
    calibrateScale 2.0005 0.2 = 0.2 / Real.sqrt 365 ∧
    calibrateScale 2.0005 0.2 ≠
      (0.2 / Real.sqrt 365) / Real.sqrt (2.0005 / (2.0005 - 2)) := by
  have hfall : calibrateScale 2.0005 0.2 = 0.2 / Real.sqrt 365 := by
    unfold calibrateScale
    rw [if_pos (by norm_num)]
  refine ⟨hfall, ?_⟩
  rw [hfall]
  have hx : (0 : ℝ) < 0.2 / Real.sqrt 365 := by
    apply div_pos (by norm_num)
    exact Real.sqrt_pos.mpr (by norm_num)
  have hratio : (2.0005 : ℝ) / (2.0005 - 2) = 4001 := by norm_num
  rw [hratio]
  have hs : (1 : ℝ) < Real.sqrt 4001 := by
    have := Real.sqrt_lt_sqrt (by norm_num : (0:ℝ) ≤ 1) (by norm_num : (1:ℝ) < 4001)
    simpa using this
  have hlt : (0.2 / Real.sqrt 365) / Real.sqrt 4001 < 0.2 / Real.sqrt 365 :=
    div_lt_self hx hs
  exact ne_of_gt hlt

/-- C9 amended: the calibrator falls back to `targetAnnualizedVol/√365`
exactly when `df ≤ 2.001` (the source guard, not `df ≤ 2`); for
`df > 2.001` it returns `(vol/√365)/√(df/(df-2))`, and then
`scale · √(df/(df-2))` recovers the target daily vol exactly. -/
theorem calibrateScale_spec (df vol : ℝ) :
    (df ≤ 2.001 → calibrateScale df vol = vol / Real.sqrt 365) ∧
    (2.001 < df →
      calibrateScale df vol = (vol / Real.sqrt 365) / Real.sqrt (df / (df - 2)) ∧
      calibrateScale df vol * Real.sqrt (df / (df - 2)) = vol / Real.sqrt 365) := by
  constructor
  · intro h
    unfold calibrateScale
    rw [if_pos h]
  · intro h
    have hnot : ¬ df ≤ 2.001 := not_le.mpr h
    have hform : calibrateScale df vol = (vol / Real.sqrt 365) / Real.sqrt (df / (df - 2)) := by
      unfold calibrateScale
      rw [if_neg hnot]
    refine ⟨hform, ?_⟩
    rw [hform]
    have hpos : (0 : ℝ) < df / (df - 2) := by
      apply div_pos (by linarith) (by linarith)
    have hsq : Real.sqrt (df / (df - 2)) ≠ 0 := ne_of_gt (Real.sqrt_pos.mpr hpos)
    exact div_mul_cancel₀ _ hsq

/-- Witness for C9 amended at `df = 5`, `vol = 0.2`: the recovery
identity holds (exactly, hence within any relative tolerance). -/
theorem calibrateScale_spec_witness :
    calibrateScale 5 0.2 * Real.sqrt (5 / (5 - 2)) = 0.2 / Real.sqrt 365 :=
  ((calibrateScale_spec 5 0.2).2 (by norm_num)).2

/-! ## Claim C4 — trial-mode effective cost -/

/-- C4: in trial mode, or when the entered cost is exactly zero, the
normalized leg's `effectiveCostPerShare` is the live quote when that
quote is present and positive, and otherwise the BSM price at the base
date (base-date trading days / 252 as time, the leg's own IV with no
global offset, intrinsic when that time is ≤ 0); `costBasis` is
`posMultiplier` times this effective cost. -/
theorem processLegData_trial_cost (leg : RawLeg) (simD : ℤ) (ivOff : ℝ)
    (b : ℤ) (u ir : ℝ) (vm : ViewMode)
    (hmode : vm = ViewMode.trial ∨ leg.cost = 0) :
    (∀ q : ℝ, leg.currentPrice = some q → 0 < q →
      (processLegData leg simD ivOff (some b) (some u) (some ir) vm).effectiveCostPerShare = q) ∧
    (¬ quoteIsPositive leg.currentPrice →
      (processLegData leg simD ivOff (some b) (some u) (some ir) vm).effectiveCostPerShare =
        (if ((calendarToTradingDays b leg.expDate : ℝ) / 252.0) ≤ 0 then
          intrinsicValue leg.type u leg.strike
        else
          calculateOptionPrice leg.type u leg.strike
            ((calendarToTradingDays b leg.expDate : ℝ) / 252.0) ir leg.iv)) ∧
    (processLegData leg simD ivOff (some b) (some u) (some ir) vm).costBasis =
      (processLegData leg simD ivOff (some b) (some u) (some ir) vm).posMultiplier *
      (processLegData leg simD ivOff (some b) (some u) (some ir) vm).effectiveCostPerShare := by
  refine ⟨?_, ?_, ?_⟩
  · intro q hq hqpos
    simp only [processLegData, if_pos hmode]
    rw [if_pos (by rw [hq]; exact hqpos), hq]
    rfl
  · intro hnoq
    simp only [processLegData, if_pos hmode]
    rw [if_neg hnoq]
  · simp [processLegData]

/-- Witness for C4: a zero-cost leg with a live quote of 3.75 gets
effective cost 3.75. -/
theorem processLegData_trial_cost_witness :
    (processLegData ⟨.call, 100, 1, 30, 0.2, 0, some 3.75⟩ 0 0 (some 0) (some 100)
      (some 0.03) .active).effectiveCostPerShare = 3.75 :=
  (processLegData_trial_cost ⟨.call, 100, 1, 30, 0.2, 0, some 3.75⟩ 0 0 0 100 0.03 .active
    (Or.inr rfl)).1 3.75 rfl (by norm_num)

/-! ## Claim C2 — Monte Carlo worker valuation vs the BSM kernel -/

/-- The worker's precomputed `d1` (`log_S * inv_v_sqrt_T + d1_const`)
equals the kernel's `calculateD1` for positive spot, strike, time and
(floored) volatility. -/
theorem worker_d1_eq (S K T r v : ℝ) (hS : 0 < S) (hK : 0 < K) (hT : 0 < T) (hv : 0 < v) :
    Real.log S * (1.0 / (v * Real.sqrt T)) +
      (-Real.log K + (r + 0.5 * v * v) * T) / (v * Real.sqrt T) =
    calculateD1 S K T r v := by
  have hs : Real.sqrt T ≠ 0 := ne_of_gt (Real.sqrt_pos.mpr hT)
  unfold calculateD1
  rw [Real.log_div (ne_of_gt hS) (ne_of_gt hK)]
  field_simp
  ring

/-- The kernel's volatility floor is positive. -/
theorem vol_floor_pos (v : ℝ) : 0 < (if v ≤ 0 then (0.0001 : ℝ) else v) := by
  split
  · norm_num
  · linarith [not_le.mp (by assumption)]

/-- For `T > 0` and positive spot and strike, the worker's inlined
valuation agrees with the BSM kernel on the same raw inputs (both apply
the same volatility floor). -/
theorem workerLegValue_eq_kernel (wl : WorkerLeg) (S : ℝ)
    (hS : 0 < S) (hK : 0 < wl.K) (hT : 0 < wl.T) :
    workerLegValue wl S = calculateOptionPrice wl.type S wl.K wl.T wl.r wl.v := by
  obtain ⟨ty, K, r, T, v, pm, cb⟩ := wl
  simp only at hK hT
  have hv : 0 < (if v ≤ 0 then (0.0001 : ℝ) else v) := vol_floor_pos v
  simp only [workerLegValue, calculateOptionPrice]
  rw [if_neg (not_le.mpr hT), if_neg (not_le.mpr hT), if_pos hS, if_neg (not_le.mpr hS)]
  rw [worker_d1_eq S K T r _ hS hK hT hv]
  cases ty <;> simp only [calculateD2]

/-- The processed leg's `T` is zero when expired. -/
theorem processLegData_T_of_expired (leg : RawLeg) (simD : ℤ) (ivOff : ℝ)
    (b : Option ℤ) (u ir : Option ℝ) (vm : ViewMode) (h : leg.expDate ≤ simD) :
    (processLegData leg simD ivOff b u ir vm).T = 0 := by
  simp [processLegData, h]

/-- The processed leg's `isExpired` flag decides `expiry ≤ simulatedDate`. -/
theorem processLegData_isExpired_iff (leg : RawLeg) (simD : ℤ) (ivOff : ℝ)
    (b : Option ℤ) (u ir : Option ℝ) (vm : ViewMode) :
    (processLegData leg simD ivOff b u ir vm).isExpired = true ↔ leg.expDate ≤ simD := by
  simp [processLegData]

/-- The processed leg's `T` is `tradDTE / 252`. -/
theorem processLegData_T_eq (leg : RawLeg) (simD : ℤ) (ivOff : ℝ)
    (b : Option ℤ) (u ir : Option ℝ) (vm : ViewMode) :
    (processLegData leg simD ivOff b u ir vm).T =
      ((processLegData leg simD ivOff b u ir vm).tradDTE : ℝ) / 252.0 := rfl

/-- C2: for every terminal price `S > 0` the worker's inlined per-leg
valuation of a leg assembled from `processLegData` coincides with the
Simulated Price Resolver's model state `computeLegPrice` at `S` as the
spot (expired → intrinsic, else BSM); and for any worker leg with
`T > 0` and positive strike it equals the BSM kernel
`calculateOptionPrice` on the same inputs with the same volatility
floor. -/
theorem workerValuation_matches_resolver (leg : RawLeg) (simD : ℤ) (ivOff : ℝ)
    (b : Option ℤ) (u ir : Option ℝ) (vm : ViewMode) (S r : ℝ)
    (hS : 0 < S) (hK : 0 < leg.strike) :
    workerLegValue (mkWorkerLeg (processLegData leg simD ivOff b u ir vm) r) S =
      computeLegPrice (processLegData leg simD ivOff b u ir vm) S r ∧
    (∀ wl : WorkerLeg, 0 < wl.T → 0 < wl.K →
      workerLegValue wl S = calculateOptionPrice wl.type S wl.K wl.T wl.r wl.v) := by
  constructor
  · by_cases hexp : leg.expDate ≤ simD
    · have hT0 : (processLegData leg simD ivOff b u ir vm).T = 0 :=
        processLegData_T_of_expired leg simD ivOff b u ir vm hexp
      have hE : (processLegData leg simD ivOff b u ir vm).isExpired = true :=
        (processLegData_isExpired_iff leg simD ivOff b u ir vm).mpr hexp
      unfold workerLegValue computeLegPrice mkWorkerLeg
      rw [hE]
      simp only [hT0, if_true, le_refl, if_pos]
    · have hE : (processLegData leg simD ivOff b u ir vm).isExpired = false := by
        rw [← Bool.not_eq_true]
        rw [processLegData_isExpired_iff]
        exact hexp
      have hT : (0:ℝ) ≤ (processLegData leg simD ivOff b u ir vm).T := by
        rw [processLegData_T_eq]
        positivity
      rcases lt_or_eq_of_le hT with hTpos | hT0
      · rw [workerLegValue_eq_kernel _ S hS hK hTpos]
        unfold computeLegPrice
        rw [hE]
        simp only [Bool.false_eq_true, if_false]
        rfl
      · unfold workerLegValue computeLegPrice mkWorkerLeg
        rw [hE]
        simp only [Bool.false_eq_true, if_false]
        unfold calculateOptionPrice
        rw [if_pos (le_of_eq hT0.symm), if_pos (le_of_eq hT0.symm)]
  · intro wl hT hK2
    exact workerLegValue_eq_kernel wl S hS hK2 hT

/-- Witness for C2 at a concrete non-expired leg and terminal price 95. -/
theorem workerValuation_matches_resolver_witness :
    workerLegValue
      (mkWorkerLeg (processLegData ⟨.call, 100, 1, 30, 0.2, 1.5, none⟩ 0 0 none none none .active) 0.03) 95 =
    computeLegPrice (processLegData ⟨.call, 100, 1, 30, 0.2, 1.5, none⟩ 0 0 none none none .active) 95 0.03 :=
  (workerValuation_matches_resolver ⟨.call, 100, 1, 30, 0.2, 1.5, none⟩ 0 0 none none none
    .active 95 0.03 (by norm_num) (by norm_num)).1

/-! ## Properties of the Abramowitz–Stegun approximation -/

/-- The A&S quintic is monotone on `[0, 1]`: the difference factors as
`(t - s)` times a quartic that is nonnegative on the unit square. -/
theorem asPoly_mono {s t : ℝ} (hs0 : 0 ≤ s) (hst : s ≤ t) (ht1 : t ≤ 1) :
    asPoly s ≤ asPoly t := by
  have ht0 : 0 ≤ t := le_trans hs0 hst
  have hs1 : s ≤ 1 := le_trans hst ht1
  have hfact : asPoly t - asPoly s =
      (t - s) * (0.254829592 - 0.284496736*(s+t) + 1.421413741*(s^2+s*t+t^2)
        - 1.453152027*(s^3+s^2*t+s*t^2+t^3)
        + 1.061405429*(s^4+s^3*t+s^2*t^2+s*t^3+t^4)) := by
    unfold asPoly
    ring
  have hG : 0 ≤ 0.254829592 - 0.284496736*(s+t) + 1.421413741*(s^2+s*t+t^2)
      - 1.453152027*(s^3+s^2*t+s*t^2+t^3)
      + 1.061405429*(s^4+s^3*t+s^2*t^2+s*t^3+t^4) := by
    nlinarith [sq_nonneg (s - t), sq_nonneg (s + t), mul_nonneg hs0 ht0,
      sq_nonneg (s + t - 1), sq_nonneg (s*t), mul_nonneg (mul_nonneg hs0 ht0) hs0,
      mul_nonneg (mul_nonneg hs0 ht0) ht0, sq_nonneg (s^2 - t^2), sq_nonneg (s^2 + t^2),
      mul_nonneg (mul_nonneg hs0 hs0) (mul_nonneg ht0 ht0)]
  nlinarith [mul_nonneg (sub_nonneg.mpr hst) hG]

/-- The A&S quintic vanishes at 0. -/
theorem asPoly_zero : asPoly 0 = 0 := by
  unfold asPoly
  ring

/-- Value of the A&S quintic at 1: the sum of the five coefficients,
which is `1 - 1e-9`. -/
theorem asPoly_one : asPoly 1 = 0.999999999 := by
  unfold asPoly
  norm_num

/-- The A&S quintic is nonnegative on `[0, 1]`. -/
theorem asPoly_nonneg {t : ℝ} (ht0 : 0 ≤ t) (ht1 : t ≤ 1) : 0 ≤ asPoly t := by
  have := asPoly_mono (le_refl 0) ht0 ht1
  rwa [asPoly_zero] at this

/-- The A&S quintic is at most 1 on `[0, 1]`. -/
theorem asPoly_le_one {t : ℝ} (ht0 : 0 ≤ t) (ht1 : t ≤ 1) : asPoly t ≤ 1 := by
  have := asPoly_mono ht0 ht1 (le_refl 1)
  rw [asPoly_one] at this
  linarith

/-- `tOf x` lies in `(0, 1]` for `x ≥ 0`. -/
theorem tOf_pos_le_one {x : ℝ} (hx : 0 ≤ x) : 0 < tOf x ∧ tOf x ≤ 1 := by
  unfold tOf
  constructor
  · apply div_pos (by norm_num)
    nlinarith
  · rw [div_le_one (by nlinarith)]
    nlinarith

/-- `tOf` is antitone on `[0, ∞)`. -/
theorem tOf_antitone {x y : ℝ} (hx : 0 ≤ x) (hxy : x ≤ y) : tOf y ≤ tOf x := by
  unfold tOf
  apply div_le_div_of_nonneg_left (by norm_num) (by nlinarith) (by nlinarith)

/-- The square of `z / √2` is `z² / 2`. -/
theorem div_sqrt_two_sq (z : ℝ) : z / Real.sqrt 2 * (z / Real.sqrt 2) = z ^ 2 / 2 := by
  rw [div_mul_div_comm, ← pow_two, ← pow_two, Real.sq_sqrt (by norm_num : (0:ℝ) ≤ 2)]

/-- Branch form of `normalCDF` for nonnegative arguments. -/
theorem normalCDF_of_nonneg {z : ℝ} (hz : 0 ≤ z) :
    normalCDF z = 1 - 0.5 * asPoly (tOf (z / Real.sqrt 2)) * Real.exp (-z ^ 2 / 2) := by
  simp only [normalCDF, tOf]
  rw [if_neg (not_lt.mpr hz), abs_of_nonneg hz]
  have harg : -(z / Real.sqrt 2) * (z / Real.sqrt 2) = -z ^ 2 / 2 := by
    rw [neg_mul, div_sqrt_two_sq]
    ring
  rw [harg]
  ring

/-- Branch form of `normalCDF` for negative arguments. -/
theorem normalCDF_of_neg {z : ℝ} (hz : z < 0) :
    normalCDF z = 0.5 * asPoly (tOf (-z / Real.sqrt 2)) * Real.exp (-z ^ 2 / 2) := by
  simp only [normalCDF, tOf]
  rw [if_pos hz, abs_of_neg hz]
  have harg : -(-z / Real.sqrt 2) * (-z / Real.sqrt 2) = -z ^ 2 / 2 := by
    rw [neg_mul, div_sqrt_two_sq]
    ring
  rw [harg]
  ring

/-- For every nonzero `z`, `normalCDF z + normalCDF (-z) = 1` exactly
(the polynomial term cancels between the two signed branches). -/
theorem normalCDF_add_neg {z : ℝ} (hz : z ≠ 0) :
    normalCDF z + normalCDF (-z) = 1 := by
  rcases lt_or_gt_of_ne hz with hneg | hpos
  · rw [normalCDF_of_neg hneg, normalCDF_of_nonneg (by linarith : (0:ℝ) ≤ -z)]
    rw [neg_sq]
    ring
  · rw [normalCDF_of_nonneg (le_of_lt hpos), normalCDF_of_neg (by linarith : -z < 0)]
    rw [neg_neg, neg_sq]
    ring

/-- `normalCDF` takes values in `[0, 1]`. -/
theorem normalCDF_mem_unit (z : ℝ) : 0 ≤ normalCDF z ∧ normalCDF z ≤ 1 := by
  have hE0 : 0 < Real.exp (-z ^ 2 / 2) := Real.exp_pos _
  have hE1 : Real.exp (-z ^ 2 / 2) ≤ 1 := by
    rw [show (1:ℝ) = Real.exp 0 from (Real.exp_zero).symm]
    exact Real.exp_le_exp.mpr (by nlinarith [sq_nonneg z])
  have hs2 : 0 < Real.sqrt 2 := Real.sqrt_pos.mpr (by norm_num)
  rcases lt_or_le z 0 with hneg | hnn
  · have hx : 0 ≤ -z / Real.sqrt 2 := div_nonneg (by linarith) hs2.le
    obtain ⟨htp, htl⟩ := tOf_pos_le_one hx
    have hp0 := asPoly_nonneg (le_of_lt htp) htl
    have hp1 := asPoly_le_one (le_of_lt htp) htl
    rw [normalCDF_of_neg hneg]
    constructor
    · exact mul_nonneg (mul_nonneg (by norm_num) hp0) hE0.le
    · nlinarith
  · have hx : 0 ≤ z / Real.sqrt 2 := div_nonneg hnn hs2.le
    obtain ⟨htp, htl⟩ := tOf_pos_le_one hx
    have hp0 := asPoly_nonneg (le_of_lt htp) htl
    have hp1 := asPoly_le_one (le_of_lt htp) htl
    rw [normalCDF_of_nonneg hnn]
    constructor
    · nlinarith
    · nlinarith

/-! ## Claim C7 — the kernel price is never negative -/

/-- The fundamental BSM exponential identity
`K·e^{-rT}·e^{-d2²/2} = S·e^{-d1²/2}` (for positive spot, strike, time
and volatility), which forces the two tail terms of the price to have
the exact relative weight that keeps the approximate price nonnegative. -/
theorem bsm_exp_identity (S K T r v : ℝ) (hS : 0 < S) (hK : 0 < K) (hT : 0 < T) (hv : 0 < v) :
    K * Real.exp (-r * T) *
      Real.exp (-(calculateD2 (calculateD1 S K T r v) v T) ^ 2 / 2) =
    S * Real.exp (-(calculateD1 S K T r v) ^ 2 / 2) := by
  have hst : (0:ℝ) < v * Real.sqrt T := mul_pos hv (Real.sqrt_pos.mpr hT)
  have hTsq : Real.sqrt T ^ 2 = T := Real.sq_sqrt hT.le
  have hmul : calculateD1 S K T r v * (v * Real.sqrt T) =
      Real.log (S / K) + (r + (v * v) / 2) * T := by
    unfold calculateD1
    field_simp
    ring
  have harg : -r * T + -(calculateD2 (calculateD1 S K T r v) v T) ^ 2 / 2 =
      Real.log (S / K) + -(calculateD1 S K T r v) ^ 2 / 2 := by
    unfold calculateD2
    nlinarith [hmul, hTsq]
  calc K * Real.exp (-r * T) * Real.exp (-(calculateD2 (calculateD1 S K T r v) v T) ^ 2 / 2)
      = K * Real.exp (-r * T + -(calculateD2 (calculateD1 S K T r v) v T) ^ 2 / 2) := by
        rw [Real.exp_add]; ring
    _ = K * Real.exp (Real.log (S / K) + -(calculateD1 S K T r v) ^ 2 / 2) := by rw [harg]
    _ = K * (S / K * Real.exp (-(calculateD1 S K T r v) ^ 2 / 2)) := by
        rw [Real.exp_add, Real.exp_log (div_pos hS hK)]
    _ = S * Real.exp (-(calculateD1 S K T r v) ^ 2 / 2) := by
        field_simp

/-- The approximate call value `S·N(d1) - K·e^{-rT}·N(d2)` is
nonnegative for positive spot, strike, time and volatility. -/
theorem callValue_nonneg (S K T r v : ℝ) (hS : 0 < S) (hK : 0 < K) (hT : 0 < T) (hv : 0 < v) :
    0 ≤ S * normalCDF (calculateD1 S K T r v) -
      K * Real.exp (-r * T) * normalCDF (calculateD2 (calculateD1 S K T r v) v T) := by
  set d1 := calculateD1 S K T r v with hd1def
  set d2 := calculateD2 d1 v T with hd2def
  have hd21 : d2 < d1 := by
    rw [hd2def]
    unfold calculateD2
    linarith [mul_pos hv (Real.sqrt_pos.mpr hT)]
  have hA : K * Real.exp (-r * T) * Real.exp (-d2 ^ 2 / 2) = S * Real.exp (-d1 ^ 2 / 2) :=
    bsm_exp_identity S K T r v hS hK hT hv
  have hs2 : (0:ℝ) < Real.sqrt 2 := Real.sqrt_pos.mpr (by norm_num)
  have hE1pos : (0:ℝ) < Real.exp (-d1 ^ 2 / 2) := Real.exp_pos _
  have hE2pos : (0:ℝ) < Real.exp (-d2 ^ 2 / 2) := Real.exp_pos _
  have hE1le : Real.exp (-d1 ^ 2 / 2) ≤ 1 := by
    rw [show (1:ℝ) = Real.exp 0 from (Real.exp_zero).symm]
    exact Real.exp_le_exp.mpr (by nlinarith [sq_nonneg d1])
  have hKE : (0:ℝ) < K * Real.exp (-r * T) := mul_pos hK (Real.exp_pos _)
  rcases le_or_lt 0 d1 with h1 | h1
  · have hx1 : 0 ≤ d1 / Real.sqrt 2 := div_nonneg h1 hs2.le
    obtain ⟨ht1p, ht1l⟩ := tOf_pos_le_one hx1
    have hp10 := asPoly_nonneg (le_of_lt ht1p) ht1l
    have hp11 := asPoly_le_one (le_of_lt ht1p) ht1l
    rw [normalCDF_of_nonneg h1]
    rcases le_or_lt 0 d2 with h2 | h2
    · -- both d1, d2 nonnegative: S dominates the discounted strike
      have hx2 : 0 ≤ d2 / Real.sqrt 2 := div_nonneg h2 hs2.le
      obtain ⟨ht2p, ht2l⟩ := tOf_pos_le_one hx2
      have hp20 := asPoly_nonneg (le_of_lt ht2p) ht2l
      have hp21 := asPoly_le_one (le_of_lt ht2p) ht2l
      have hx12 : d2 / Real.sqrt 2 ≤ d1 / Real.sqrt 2 :=
        (div_le_div_right hs2).mpr hd21.le
      have htt := tOf_antitone hx2 hx12
      have hp12 : asPoly (tOf (d1 / Real.sqrt 2)) ≤ asPoly (tOf (d2 / Real.sqrt 2)) :=
        asPoly_mono (le_of_lt ht1p) htt ht2l
      have hE12 : Real.exp (-d1 ^ 2 / 2) ≤ Real.exp (-d2 ^ 2 / 2) := by
        apply Real.exp_le_exp.mpr
        nlinarith [mul_nonneg (sub_nonneg.mpr hd21.le) (by linarith : (0:ℝ) ≤ d1 + d2)]
      have hKES : K * Real.exp (-r * T) ≤ S := by
        have h := hA.le
        have h2' : S * Real.exp (-d1 ^ 2 / 2) ≤ S * Real.exp (-d2 ^ 2 / 2) :=
          mul_le_mul_of_nonneg_left hE12 hS.le
        exact le_of_mul_le_mul_right (by linarith) hE2pos
      rw [normalCDF_of_nonneg h2]
      have hA2 : K * Real.exp (-r * T) * Real.exp (-d2 ^ 2 / 2) *
          asPoly (tOf (d2 / Real.sqrt 2)) =
          S * Real.exp (-d1 ^ 2 / 2) * asPoly (tOf (d2 / Real.sqrt 2)) := by rw [hA]
      linarith [hA2, hKES, mul_nonneg (mul_nonneg hS.le hE1pos.le) (sub_nonneg.mpr hp12)]
    · -- d1 ≥ 0 > d2: price bounded below by S(1 - 0.5·E1·(p1 + p2)) ≥ 0
      have hx2 : 0 ≤ -d2 / Real.sqrt 2 := div_nonneg (by linarith) hs2.le
      obtain ⟨ht2p, ht2l⟩ := tOf_pos_le_one hx2
      have hp20 := asPoly_nonneg (le_of_lt ht2p) ht2l
      have hp21 := asPoly_le_one (le_of_lt ht2p) ht2l
      rw [normalCDF_of_neg h2]
      have hA2 : K * Real.exp (-r * T) * Real.exp (-d2 ^ 2 / 2) *
          asPoly (tOf (-d2 / Real.sqrt 2)) =
          S * Real.exp (-d1 ^ 2 / 2) * asPoly (tOf (-d2 / Real.sqrt 2)) := by rw [hA]
      have hSE : (0:ℝ) ≤ S * Real.exp (-d1 ^ 2 / 2) := mul_nonneg hS.le hE1pos.le
      have hb1 : S * Real.exp (-d1 ^ 2 / 2) * asPoly (tOf (d1 / Real.sqrt 2)) ≤
          S * Real.exp (-d1 ^ 2 / 2) := by
        have := mul_le_mul_of_nonneg_left hp11 hSE
        linarith
      have hb2 : S * Real.exp (-d1 ^ 2 / 2) * asPoly (tOf (-d2 / Real.sqrt 2)) ≤
          S * Real.exp (-d1 ^ 2 / 2) := by
        have := mul_le_mul_of_nonneg_left hp21 hSE
        linarith
      have hb3 : S * Real.exp (-d1 ^ 2 / 2) ≤ S := by
        have := mul_le_mul_of_nonneg_left hE1le hS.le
        linarith
      linarith [hA2, hb1, hb2, hb3]
  · -- d1 < 0 (hence d2 < 0): both terms are tails, monotonicity decides
    have h2 : d2 < 0 := lt_trans hd21 h1
    have hx1 : 0 ≤ -d1 / Real.sqrt 2 := div_nonneg (by linarith) hs2.le
    have hx2 : 0 ≤ -d2 / Real.sqrt 2 := div_nonneg (by linarith) hs2.le
    obtain ⟨ht1p, ht1l⟩ := tOf_pos_le_one hx1
    obtain ⟨ht2p, ht2l⟩ := tOf_pos_le_one hx2
    have hx12 : -d1 / Real.sqrt 2 ≤ -d2 / Real.sqrt 2 :=
      (div_le_div_right hs2).mpr (by linarith)
    have htt := tOf_antitone hx1 hx12
    have hp21 : asPoly (tOf (-d2 / Real.sqrt 2)) ≤ asPoly (tOf (-d1 / Real.sqrt 2)) :=
      asPoly_mono (le_of_lt ht2p) htt ht1l
    rw [normalCDF_of_neg h1, normalCDF_of_neg h2]
    have hA2 : K * Real.exp (-r * T) * Real.exp (-d2 ^ 2 / 2) *
        asPoly (tOf (-d2 / Real.sqrt 2)) =
        S * Real.exp (-d1 ^ 2 / 2) * asPoly (tOf (-d2 / Real.sqrt 2)) := by rw [hA]
    linarith [hA2, mul_nonneg (mul_nonneg hS.le hE1pos.le) (sub_nonneg.mpr hp21)]

/-- The approximate put value `K·e^{-rT}·N(-d2) - S·N(-d1)` is
nonnegative for positive spot, strike, time and volatility. -/
theorem putValue_nonneg (S K T r v : ℝ) (hS : 0 < S) (hK : 0 < K) (hT : 0 < T) (hv : 0 < v) :
    0 ≤ K * Real.exp (-r * T) * normalCDF (-(calculateD2 (calculateD1 S K T r v) v T)) -
      S * normalCDF (-(calculateD1 S K T r v)) := by
  set d1 := calculateD1 S K T r v with hd1def
  set d2 := calculateD2 d1 v T with hd2def
  have hd21 : d2 < d1 := by
    rw [hd2def]
    unfold calculateD2
    linarith [mul_pos hv (Real.sqrt_pos.mpr hT)]
  have hA : K * Real.exp (-r * T) * Real.exp (-d2 ^ 2 / 2) = S * Real.exp (-d1 ^ 2 / 2) :=
    bsm_exp_identity S K T r v hS hK hT hv
  have hs2 : (0:ℝ) < Real.sqrt 2 := Real.sqrt_pos.mpr (by norm_num)
  have hE1pos : (0:ℝ) < Real.exp (-d1 ^ 2 / 2) := Real.exp_pos _
  have hE2pos : (0:ℝ) < Real.exp (-d2 ^ 2 / 2) := Real.exp_pos _
  have hE2le : Real.exp (-d2 ^ 2 / 2) ≤ 1 := by
    rw [show (1:ℝ) = Real.exp 0 from (Real.exp_zero).symm]
    exact Real.exp_le_exp.mpr (by nlinarith [sq_nonneg d2])
  have hKE : (0:ℝ) < K * Real.exp (-r * T) := mul_pos hK (Real.exp_pos _)
  rcases lt_or_le 0 d2 with h2 | h2
  · -- 0 < d2 < d1: both resolvers hit the negative branch
    have h1 : 0 < d1 := lt_trans h2 hd21
    have hn1 : -d1 < 0 := by linarith
    have hn2 : -d2 < 0 := by linarith
    rw [normalCDF_of_neg hn1, normalCDF_of_neg hn2, neg_neg, neg_neg, neg_sq, neg_sq]
    have hx1 : 0 ≤ d1 / Real.sqrt 2 := div_nonneg h1.le hs2.le
    have hx2 : 0 ≤ d2 / Real.sqrt 2 := div_nonneg h2.le hs2.le
    obtain ⟨ht1p, ht1l⟩ := tOf_pos_le_one hx1
    obtain ⟨ht2p, ht2l⟩ := tOf_pos_le_one hx2
    have hx12 : d2 / Real.sqrt 2 ≤ d1 / Real.sqrt 2 := (div_le_div_right hs2).mpr hd21.le
    have htt := tOf_antitone hx2 hx12
    have hp12 : asPoly (tOf (d1 / Real.sqrt 2)) ≤ asPoly (tOf (d2 / Real.sqrt 2)) :=
      asPoly_mono (le_of_lt ht1p) htt ht2l
    have hA2 : K * Real.exp (-r * T) * Real.exp (-d2 ^ 2 / 2) *
        asPoly (tOf (d2 / Real.sqrt 2)) =
        S * Real.exp (-d1 ^ 2 / 2) * asPoly (tOf (d2 / Real.sqrt 2)) := by rw [hA]
    linarith [hA2, mul_nonneg (mul_nonneg hS.le hE1pos.le) (sub_nonneg.mpr hp12)]
  · rcases lt_or_le 0 d1 with h1 | h1
    · -- d2 ≤ 0 < d1: discounted strike dominates S·E1
      have hn1 : -d1 < 0 := by linarith
      have hn2 : 0 ≤ -d2 := by linarith
      rw [normalCDF_of_neg hn1, normalCDF_of_nonneg hn2, neg_neg, neg_sq, neg_sq]
      have hx1 : 0 ≤ d1 / Real.sqrt 2 := div_nonneg h1.le hs2.le
      have hx2 : 0 ≤ -d2 / Real.sqrt 2 := div_nonneg hn2 hs2.le
      obtain ⟨ht1p, ht1l⟩ := tOf_pos_le_one hx1
      obtain ⟨ht2p, ht2l⟩ := tOf_pos_le_one hx2
      have hp10 := asPoly_nonneg (le_of_lt ht1p) ht1l
      have hp11 := asPoly_le_one (le_of_lt ht1p) ht1l
      have hp20 := asPoly_nonneg (le_of_lt ht2p) ht2l
      have hp21 := asPoly_le_one (le_of_lt ht2p) ht2l
      have hA2 : K * Real.exp (-r * T) * Real.exp (-d2 ^ 2 / 2) *
          asPoly (tOf (-d2 / Real.sqrt 2)) =
          S * Real.exp (-d1 ^ 2 / 2) * asPoly (tOf (-d2 / Real.sqrt 2)) := by rw [hA]
      have hSE : (0:ℝ) ≤ S * Real.exp (-d1 ^ 2 / 2) := mul_nonneg hS.le hE1pos.le
      have hSE1 : S * Real.exp (-d1 ^ 2 / 2) ≤ K * Real.exp (-r * T) := by
        rw [← hA]
        have := mul_le_mul_of_nonneg_left hE2le hKE.le
        linarith
      have hb1 : S * Real.exp (-d1 ^ 2 / 2) * asPoly (tOf (d1 / Real.sqrt 2)) ≤
          S * Real.exp (-d1 ^ 2 / 2) := by
        have := mul_le_mul_of_nonneg_left hp11 hSE
        linarith
      have hb2 : S * Real.exp (-d1 ^ 2 / 2) * asPoly (tOf (-d2 / Real.sqrt 2)) ≤
          S * Real.exp (-d1 ^ 2 / 2) := by
        have := mul_le_mul_of_nonneg_left hp21 hSE
        linarith
      linarith [hA2, hb1, hb2, hSE1]
    · -- d2 < d1 ≤ 0: both in the upper branch, K·e^{-rT} dominates S
      have hn1 : 0 ≤ -d1 := by linarith
      have hn2 : 0 ≤ -d2 := by linarith
      rw [normalCDF_of_nonneg hn1, normalCDF_of_nonneg hn2, neg_sq, neg_sq]
      have hx1 : 0 ≤ -d1 / Real.sqrt 2 := div_nonneg hn1 hs2.le
      have hx2 : 0 ≤ -d2 / Real.sqrt 2 := div_nonneg hn2 hs2.le
      obtain ⟨ht1p, ht1l⟩ := tOf_pos_le_one hx1
      obtain ⟨ht2p, ht2l⟩ := tOf_pos_le_one hx2
      have hx12 : -d1 / Real.sqrt 2 ≤ -d2 / Real.sqrt 2 :=
        (div_le_div_right hs2).mpr (by linarith)
      have htt := tOf_antitone hx1 hx12
      have hp21 : asPoly (tOf (-d2 / Real.sqrt 2)) ≤ asPoly (tOf (-d1 / Real.sqrt 2)) :=
        asPoly_mono (le_of_lt ht2p) htt ht1l
      have hE21 : Real.exp (-d2 ^ 2 / 2) ≤ Real.exp (-d1 ^ 2 / 2) := by
        apply Real.exp_le_exp.mpr
        nlinarith [mul_nonneg (sub_nonneg.mpr hd21.le) (by linarith : (0:ℝ) ≤ -d1 + -d2)]
      have hSKE : S ≤ K * Real.exp (-r * T) := by
        have h2' : K * Real.exp (-r * T) * Real.exp (-d2 ^ 2 / 2) ≤
            K * Real.exp (-r * T) * Real.exp (-d1 ^ 2 / 2) :=
          mul_le_mul_of_nonneg_left hE21 hKE.le
        rw [hA] at h2'
        exact le_of_mul_le_mul_right h2' hE1pos
      have hA2 : K * Real.exp (-r * T) * Real.exp (-d2 ^ 2 / 2) *
          asPoly (tOf (-d2 / Real.sqrt 2)) =
          S * Real.exp (-d1 ^ 2 / 2) * asPoly (tOf (-d2 / Real.sqrt 2)) := by rw [hA]
      linarith [hA2, hSKE, mul_nonneg (mul_nonneg hS.le hE1pos.le) (sub_nonneg.mpr hp21)]

/-- C7: `calculateOptionPrice` never returns a negative premium: for
both option types, every strike `K > 0` and all real spot, time, rate
and volatility, the result is ≥ 0 — in the intrinsic branch and in the
Abramowitz–Stegun BSM branch alike. -/
theorem calculateOptionPrice_nonneg (ty : OptionType) (S K T r v : ℝ) (hK : 0 < K) :
    0 ≤ calculateOptionPrice ty S K T r v := by
  by_cases hT0 : T ≤ 0
  · unfold calculateOptionPrice
    rw [if_pos hT0]
    cases ty <;> exact le_max_left _ _
  · have hT : 0 < T := not_le.mp hT0
    have hv' : 0 < (if v ≤ 0 then (0.0001:ℝ) else v) := vol_floor_pos v
    have hS' : 0 < (if S ≤ 0 then (0.0001:ℝ) else S) := by
      split
      · norm_num
      · linarith [not_le.mp (by assumption)]
    cases ty
    · simp only [calculateOptionPrice]
      rw [if_neg hT0]
      exact callValue_nonneg _ K T r _ hS' hK hT hv'
    · simp only [calculateOptionPrice]
      rw [if_neg hT0]
      exact putValue_nonneg _ K T r _ hS' hK hT hv'

/-- Witness for C7 at a concrete deep out-of-the-money put. -/
theorem calculateOptionPrice_nonneg_witness :
    0 ≤ calculateOptionPrice .put 500 100 1 0.03 0.2 :=
  calculateOptionPrice_nonneg .put 500 100 1 0.03 0.2 (by norm_num)

/-! ## Claim C6 — put-call parity -/

/-- C6 counterexample: at `S = K = 10⁶`, `T = 1`, `r = -1/8`,
`v = 1/2` the kernel's `d1` is exactly 0, both signed branches of the
approximation evaluate at the same point, and
`call - put - (S - K·e^{-rT})` equals `10⁶·(1 - asPoly 1) = 1/1000`,
which exceeds the claimed tolerance `1e-6`. -/
theorem putCallParity_counterexample :
    (calculateOptionPrice .call 1000000 1000000 1 (-(1/8)) (1/2) -
      calculateOptionPrice .put 1000000 1000000 1 (-(1/8)) (1/2)) -
      ((1000000 : ℝ) - 1000000 * Real.exp (-(-(1/8)) * 1)) = 1/1000 ∧
    ¬ |(calculateOptionPrice .call 1000000 1000000 1 (-(1/8)) (1/2) -
      calculateOptionPrice .put 1000000 1000000 1 (-(1/8)) (1/2)) -
      ((1000000 : ℝ) - 1000000 * Real.exp (-(-(1/8)) * 1))| ≤ 1e-6 := by
  have hd1 : calculateD1 1000000 1000000 1 (-(1/8)) (1/2) = 0 := by
    unfold calculateD1
    rw [show (1000000:ℝ)/1000000 = 1 by norm_num, Real.log_one, Real.sqrt_one]
    norm_num
  have hd2 : calculateD2 (calculateD1 1000000 1000000 1 (-(1/8)) (1/2)) (1/2) 1 = -(1/2) := by
    rw [hd1]
    unfold calculateD2
    rw [Real.sqrt_one]
    norm_num
  have hN0 : normalCDF 0 = 0.5000000005 := by
    rw [normalCDF_of_nonneg (le_refl 0)]
    rw [show (0:ℝ) / Real.sqrt 2 = 0 by norm_num]
    rw [show tOf 0 = 1 by unfold tOf; norm_num]
    rw [asPoly_one]
    norm_num [Real.exp_zero]
  have hadd : normalCDF (1/2) + normalCDF (-(1/2)) = 1 :=
    normalCDF_add_neg (by norm_num)
  have hmain : (calculateOptionPrice .call 1000000 1000000 1 (-(1/8)) (1/2) -
      calculateOptionPrice .put 1000000 1000000 1 (-(1/8)) (1/2)) -
      ((1000000 : ℝ) - 1000000 * Real.exp (-(-(1/8)) * 1)) = 1/1000 := by
    simp only [calculateOptionPrice]
    rw [if_neg (by norm_num : ¬ (1:ℝ) ≤ 0), if_neg (by norm_num : ¬ (1:ℝ) ≤ 0)]
    rw [if_neg (by norm_num : ¬ (1/2:ℝ) ≤ 0), if_neg (by norm_num : ¬ (1000000:ℝ) ≤ 0)]
    rw [hd2, hd1]
    simp only [neg_neg, neg_zero, mul_one]
    rw [hN0]
    linear_combination (-(1000000:ℝ) * Real.exp ((1:ℝ)/8)) * hadd
  refine ⟨hmain, ?_⟩
  rw [hmain, show |(1:ℝ)/1000| = 1/1000 from abs_of_pos (by norm_num)]
  norm_num

/-- C6 amended: with the kernel's floors applied, put-call parity
`call - put = S' - K·e^{-rT}` holds exactly (hence within any
tolerance) whenever the floored `d1` and `d2` are nonzero; on the
measure-zero boundary `d1 = 0` or `d2 = 0` the approximation's signed
branches overlap and the parity defect is `(1 - asPoly 1)` times the
corresponding price scale, which can exceed `1e-6` for large spots. -/
theorem putCallParity (S K T r v : ℝ) (hT : 0 < T)
    (hd1 : calculateD1 (if S ≤ 0 then (0.0001:ℝ) else S) K T r
      (if v ≤ 0 then (0.0001:ℝ) else v) ≠ 0)
    (hd2 : calculateD2 (calculateD1 (if S ≤ 0 then (0.0001:ℝ) else S) K T r
      (if v ≤ 0 then (0.0001:ℝ) else v)) (if v ≤ 0 then (0.0001:ℝ) else v) T ≠ 0) :
    calculateOptionPrice .call S K T r v - calculateOptionPrice .put S K T r v =
      (if S ≤ 0 then (0.0001:ℝ) else S) - K * Real.exp (-r * T) := by
  have hadd1 := normalCDF_add_neg hd1
  have hadd2 := normalCDF_add_neg hd2
  simp only [calculateOptionPrice]
  rw [if_neg (not_le.mpr hT), if_neg (not_le.mpr hT)]
  linear_combination ((if S ≤ 0 then (0.0001:ℝ) else S)) * hadd1 -
    (K * Real.exp (-r * T)) * hadd2

/-- Witness for C6 amended at `S = K = 100`, `T = 1`, `r = 0`,
`v = 1/5`, where `d1 = 1/10` and `d2 = -1/10` are nonzero. -/
theorem putCallParity_witness :
    calculateOptionPrice .call 100 100 1 0 (1/5) - calculateOptionPrice .put 100 100 1 0 (1/5) =
      100 - 100 * Real.exp (-0 * 1) := by
  have e1 : (if (100:ℝ) ≤ 0 then (0.0001:ℝ) else 100) = 100 := if_neg (by norm_num)
  have e2 : (if (1/5:ℝ) ≤ 0 then (0.0001:ℝ) else 1/5) = 1/5 := if_neg (by norm_num)
  have hd1v : calculateD1 100 100 1 0 (1/5) = 1/10 := by
    unfold calculateD1
    rw [show (100:ℝ)/100 = 1 by norm_num, Real.log_one, Real.sqrt_one]
    norm_num
  have hd2v : calculateD2 (calculateD1 100 100 1 0 (1/5)) (1/5) 1 = -(1/10) := by
    rw [hd1v]
    unfold calculateD2
    rw [Real.sqrt_one]
    norm_num
  have h := putCallParity 100 100 1 0 (1/5) (by norm_num)
    (by rw [e1, e2, hd1v]; norm_num)
    (by rw [e1, e2, hd2v]; norm_num)
  rw [e1] at h
  exact h

/-! ## Claim C1 — exact expected P&L over the full path count -/

/-- Each worker-loop step adds exactly the path's portfolio payoff to
the running P&L total (also when the leg list is empty, where the
source's `legs.length > 0` guard and an empty sum agree on 0). -/
theorem mcStep_exactPnLSum (cp minS w : ℝ) (bins : ℕ) (legs : List WorkerLeg)
    (st : MCState) (z : ℝ) :
    (mcStep cp minS w bins legs st z).exactPnLSum =
      st.exactPnLSum + pathPnL legs (cp * Real.exp z) := by
  by_cases h : legs = []
  · simp [mcStep, h, pathPnL]
  · simp [mcStep, h]

/-- The fold accumulates the sum of all per-path payoffs. -/
theorem mcFold_exactPnLSum (cp minS w : ℝ) (bins : ℕ) (legs : List WorkerLeg) :
    ∀ (draws : List ℝ) (init : MCState),
      (draws.foldl (mcStep cp minS w bins legs) init).exactPnLSum =
        init.exactPnLSum + (draws.map fun z => pathPnL legs (cp * Real.exp z)).sum := by
  intro draws
  induction draws with
  | nil => intro init; simp
  | cons z rest ih =>
      intro init
      simp only [List.foldl_cons, List.map_cons, List.sum_cons]
      rw [ih, mcStep_exactPnLSum]
      ring

/-- C1: with a positive path count `N`, the worker's
`exactExpectedPnL` is the sum over all `N` drawn paths of the portfolio
payoff at the path's terminal price (per leg,
`posMultiplier · valuation - costBasis`), divided by the full `N` —
paths outside `[minS, maxS]` included — and the value is invariant
under any choice of `minS`, `maxS` and bin count. -/
theorem exactExpectedPnL_full_count (draws : List ℝ) (cp minS maxS minS' maxS' : ℝ)
    (bins bins' : ℕ) (legs : List WorkerLeg) (hN : 0 < draws.length) :
    exactExpectedPnL draws cp minS maxS bins legs =
      (draws.map fun z =>
        (legs.map fun leg =>
          leg.posMultiplier * workerLegValue leg (cp * Real.exp z) - leg.costBasis).sum).sum /
        (draws.length : ℝ) ∧
    exactExpectedPnL draws cp minS maxS bins legs =
      exactExpectedPnL draws cp minS' maxS' bins' legs := by
  have hform : ∀ (a b : ℝ) (c : ℕ),
      exactExpectedPnL draws cp a b c legs =
        (draws.map fun z => pathPnL legs (cp * Real.exp z)).sum / (draws.length : ℝ) := by
    intro a b c
    unfold exactExpectedPnL mcRun
    rw [if_pos hN, mcFold_exactPnLSum]
    norm_num
  constructor
  · rw [hform minS maxS bins]
    rfl
  · rw [hform minS maxS bins, hform minS' maxS' bins']

/-- Witness for C1: a single-path run with no legs has expected P&L
`0 / 1`, independent of the bounds. -/
theorem exactExpectedPnL_full_count_witness :
    exactExpectedPnL [0] 100 90 110 10 [] =
      (([0].map fun z =>
        (([] : List WorkerLeg).map fun leg =>
          leg.posMultiplier * workerLegValue leg (100 * Real.exp z) - leg.costBasis).sum).sum) /
        (([0] : List ℝ).length : ℝ) ∧
    exactExpectedPnL [0] 100 90 110 10 [] = exactExpectedPnL [0] 100 50 200 500 [] :=
  ⟨(exactExpectedPnL_full_count [0] 100 90 110 50 200 10 500 [] (by norm_num)).1,
   (exactExpectedPnL_full_count [0] 100 90 110 50 200 10 500 [] (by norm_num)).2⟩

/-! ## Claim C10 — histogram binning and density normalisation -/

/-- Each worker-loop step increments the total bin count by exactly one
when the terminal price's bin index lies in `[0, bins)`, and leaves all
bins unchanged otherwise. -/
theorem mcStep_counts_sum (cp minS w : ℝ) (bins : ℕ) (legs : List WorkerLeg)
    (st : MCState) (z : ℝ) :
    ∑ i ∈ Finset.Ico (0:ℤ) (bins:ℤ), (mcStep cp minS w bins legs st z).counts i =
      (∑ i ∈ Finset.Ico (0:ℤ) (bins:ℤ), st.counts i) +
      (if 0 ≤ ⌊(cp * Real.exp z - minS) / w⌋ ∧ ⌊(cp * Real.exp z - minS) / w⌋ < (bins:ℤ)
        then 1 else 0) := by
  by_cases h : 0 ≤ ⌊(cp * Real.exp z - minS) / w⌋ ∧ ⌊(cp * Real.exp z - minS) / w⌋ < (bins:ℤ)
  · have hmem : ⌊(cp * Real.exp z - minS) / w⌋ ∈ Finset.Ico (0:ℤ) (bins:ℤ) :=
      Finset.mem_Ico.mpr h
    simp only [mcStep, if_pos h]
    rw [Finset.sum_update_of_mem hmem, ← Finset.erase_eq,
      ← Finset.add_sum_erase _ st.counts hmem]
    omega
  · simp [mcStep, if_neg h]

/-- The fold accumulates the number of in-range paths into the total
bin count. -/
theorem mcFold_counts_sum (cp minS w : ℝ) (bins : ℕ) (legs : List WorkerLeg) :
    ∀ (draws : List ℝ) (init : MCState),
      ∑ i ∈ Finset.Ico (0:ℤ) (bins:ℤ),
          (draws.foldl (mcStep cp minS w bins legs) init).counts i =
        (∑ i ∈ Finset.Ico (0:ℤ) (bins:ℤ), init.counts i) +
        (draws.map fun z =>
          if 0 ≤ ⌊(cp * Real.exp z - minS) / w⌋ ∧ ⌊(cp * Real.exp z - minS) / w⌋ < (bins:ℤ)
          then 1 else 0).sum := by
  intro draws
  induction draws with
  | nil => intro init; simp
  | cons z rest ih =>
      intro init
      simp only [List.foldl_cons, List.map_cons, List.sum_cons]
      rw [ih, mcStep_counts_sum]
      omega

/-- The bin index lies in `[0, bins)` exactly when the terminal price
lies in `[minS, maxS)` (for a positive bin count and a nonempty price
interval). -/
theorem binIdx_in_range_iff (p minS maxS : ℝ) (bins : ℕ)
    (hb : 0 < bins) (hr : minS < maxS) :
    (0 ≤ ⌊(p - minS) / ((maxS - minS) / (bins:ℝ))⌋ ∧
      ⌊(p - minS) / ((maxS - minS) / (bins:ℝ))⌋ < (bins:ℤ)) ↔
    (minS ≤ p ∧ p < maxS) := by
  have hbR : (0:ℝ) < (bins:ℝ) := by exact_mod_cast hb
  have hw : (0:ℝ) < (maxS - minS) / (bins:ℝ) := div_pos (by linarith) hbR
  constructor
  · rintro ⟨h0, h1⟩
    have h0' : (0:ℝ) ≤ (p - minS) / ((maxS - minS) / (bins:ℝ)) := by
      exact_mod_cast Int.le_floor.mp h0
    have h1' : (p - minS) / ((maxS - minS) / (bins:ℝ)) < ((bins:ℤ):ℝ) := Int.floor_lt.mp h1
    constructor
    · nlinarith [mul_nonneg h0' hw.le, div_mul_cancel₀ (p - minS) hw.ne']
    · have := (div_lt_iff hw).mp (by exact_mod_cast h1')
      have hcancel : (bins:ℝ) * ((maxS - minS) / (bins:ℝ)) = maxS - minS := by
        field_simp
      nlinarith
  · rintro ⟨h0, h1⟩
    constructor
    · apply Int.le_floor.mpr
      push_cast
      exact div_nonneg (by linarith) hw.le
    · apply Int.floor_lt.mpr
      push_cast
      rw [div_lt_iff hw]
      have hcancel : (bins:ℝ) * ((maxS - minS) / (bins:ℝ)) = maxS - minS := by
        field_simp
      linarith [hcancel]

/-- A sum of values in `{0, 1}` over a list is at most the list's
length, with equality exactly when every element maps to 1. -/
theorem map_sum_le_length (f : ℝ → ℕ) (hf : ∀ z, f z ≤ 1) :
    ∀ l : List ℝ,
      ((l.map f).sum ≤ l.length ∧
       (((l.map f).sum = l.length) ↔ ∀ z ∈ l, f z = 1)) := by
  intro l
  induction l with
  | nil => simp
  | cons z rest ih =>
      simp only [List.map_cons, List.sum_cons, List.length_cons, List.mem_cons]
      have hz := hf z
      constructor
      · omega
      · constructor
        · intro he y hy
          rcases hy with hy | hy
          · subst hy
            have := ih.1
            omega
          · refine (ih.2.mp ?_) y hy
            have := ih.1
            omega
        · intro hall
          have h1 : f z = 1 := hall z (Or.inl rfl)
          have h2 := ih.2.mpr (fun y hy => hall y (Or.inr hy))
          omega

/-- C10: each drawn path increments exactly one histogram bin when its
terminal price lies in `[minS, maxS)` and none otherwise; hence
`∑ density[i] · binWidth = inCount / N ≤ 1`, with equality exactly when
every drawn terminal price is in range. -/
theorem density_integrates_to_inbound_mass (draws : List ℝ) (cp minS maxS : ℝ)
    (bins : ℕ) (legs : List WorkerLeg)
    (hb : 0 < bins) (hr : minS < maxS) (hN : 0 < draws.length) :
    (∀ (st : MCState) (z : ℝ),
      ∑ i ∈ Finset.Ico (0:ℤ) (bins:ℤ),
          (mcStep cp minS ((maxS - minS) / (bins:ℝ)) bins legs st z).counts i =
        (∑ i ∈ Finset.Ico (0:ℤ) (bins:ℤ), st.counts i) +
        (if minS ≤ cp * Real.exp z ∧ cp * Real.exp z < maxS then 1 else 0)) ∧
    (∑ i ∈ Finset.Ico (0:ℤ) (bins:ℤ),
        tDensity draws cp minS maxS bins legs i * ((maxS - minS) / (bins:ℝ))) =
      ((draws.map fun z =>
        if minS ≤ cp * Real.exp z ∧ cp * Real.exp z < maxS then (1:ℕ) else 0).sum : ℝ) /
        (draws.length : ℝ) ∧
    ((draws.map fun z =>
        if minS ≤ cp * Real.exp z ∧ cp * Real.exp z < maxS then (1:ℕ) else 0).sum : ℝ) /
        (draws.length : ℝ) ≤ 1 ∧
    (((draws.map fun z =>
        if minS ≤ cp * Real.exp z ∧ cp * Real.exp z < maxS then (1:ℕ) else 0).sum : ℝ) /
        (draws.length : ℝ) = 1 ↔
      ∀ z ∈ draws, minS ≤ cp * Real.exp z ∧ cp * Real.exp z < maxS) := by
  have hNR : (0:ℝ) < (draws.length : ℝ) := by exact_mod_cast hN
  have hbR : (0:ℝ) < (bins:ℝ) := by exact_mod_cast hb
  have hw : (0:ℝ) < (maxS - minS) / (bins:ℝ) := div_pos (by linarith) hbR
  have hf1 : ∀ z : ℝ,
      (if minS ≤ cp * Real.exp z ∧ cp * Real.exp z < maxS then (1:ℕ) else 0) ≤ 1 := by
    intro z
    by_cases hP : minS ≤ cp * Real.exp z ∧ cp * Real.exp z < maxS
    · rw [if_pos hP]
    · rw [if_neg hP]
      omega
  have hiff : ∀ z : ℝ,
      (0 ≤ ⌊(cp * Real.exp z - minS) / ((maxS - minS) / (bins:ℝ))⌋ ∧
        ⌊(cp * Real.exp z - minS) / ((maxS - minS) / (bins:ℝ))⌋ < (bins:ℤ)) ↔
      (minS ≤ cp * Real.exp z ∧ cp * Real.exp z < maxS) := fun z =>
    binIdx_in_range_iff (cp * Real.exp z) minS maxS bins hb hr
  have hmapeq : (draws.map fun z =>
      if 0 ≤ ⌊(cp * Real.exp z - minS) / ((maxS - minS) / (bins:ℝ))⌋ ∧
        ⌊(cp * Real.exp z - minS) / ((maxS - minS) / (bins:ℝ))⌋ < (bins:ℤ)
      then (1:ℕ) else 0) = (draws.map fun z =>
      if minS ≤ cp * Real.exp z ∧ cp * Real.exp z < maxS then (1:ℕ) else 0) := by
    apply List.map_congr_left
    intro z _
    by_cases h : minS ≤ cp * Real.exp z ∧ cp * Real.exp z < maxS
    · rw [if_pos h, if_pos ((hiff z).mpr h)]
    · rw [if_neg h, if_neg (fun hc => h ((hiff z).mp hc))]
  refine ⟨?_, ?_, ?_, ?_⟩
  · intro st z
    rw [mcStep_counts_sum]
    congr 1
    by_cases h : minS ≤ cp * Real.exp z ∧ cp * Real.exp z < maxS
    · rw [if_pos h, if_pos ((hiff z).mpr h)]
    · rw [if_neg h, if_neg (fun hc => h ((hiff z).mp hc))]
  · have hsum2 : ∑ i ∈ Finset.Ico (0:ℤ) (bins:ℤ),
        (mcRun draws cp minS maxS bins legs).counts i =
        (draws.map fun z =>
          if minS ≤ cp * Real.exp z ∧ cp * Real.exp z < maxS then (1:ℕ) else 0).sum := by
      unfold mcRun
      rw [mcFold_counts_sum, hmapeq]
      simp
    have hterm : ∀ i ∈ Finset.Ico (0:ℤ) (bins:ℤ),
        tDensity draws cp minS maxS bins legs i * ((maxS - minS) / (bins:ℝ)) =
        ((mcRun draws cp minS maxS bins legs).counts i : ℝ) / (draws.length : ℝ) := by
      intro i _
      show ((mcRun draws cp minS maxS bins legs).counts i : ℝ) /
          ((draws.length : ℝ) * ((maxS - minS) / (bins:ℝ))) * ((maxS - minS) / (bins:ℝ)) =
          ((mcRun draws cp minS maxS bins legs).counts i : ℝ) / (draws.length : ℝ)
      rw [div_mul_eq_mul_div, mul_comm ((draws.length : ℝ)) ((maxS - minS) / (bins:ℝ)),
        ← div_div, mul_div_assoc, div_self hw.ne', mul_one]
    rw [Finset.sum_congr rfl hterm, ← Finset.sum_div, ← Nat.cast_sum, hsum2]
  · rw [div_le_one hNR]
    have := (map_sum_le_length _ hf1 draws).1
    exact_mod_cast this
  · rw [div_eq_one_iff_eq hNR.ne']
    constructor
    · intro h
      intro z hz
      have h1 := (map_sum_le_length _ hf1 draws).2.mp (by exact_mod_cast h) z hz
      by_cases hP : minS ≤ cp * Real.exp z ∧ cp * Real.exp z < maxS
      · exact hP
      · rw [if_neg hP] at h1
        exact absurd h1 (by norm_num)
    · intro h
      have h1 : ((draws.map fun z =>
          if minS ≤ cp * Real.exp z ∧ cp * Real.exp z < maxS then (1:ℕ) else 0).sum)
          = draws.length := by
        apply (map_sum_le_length _ hf1 draws).2.mpr
        intro z hz
        rw [if_pos (h z hz)]
      exact_mod_cast h1

/-- Witness for C10 at a single-path run: the density integral is at
most 1. -/
theorem density_integrates_to_inbound_mass_witness :
    (((([0] : List ℝ).map fun z =>
      if (90:ℝ) ≤ 100 * Real.exp z ∧ 100 * Real.exp z < 110 then (1:ℕ) else 0).sum : ℝ)) /
      ((([0] : List ℝ).length : ℝ)) ≤ 1 :=
  (density_integrates_to_inbound_mass [0] 100 90 110 10 [] (by norm_num) (by norm_num)
    (by norm_num)).2.2.1

/-! ## Claim C3 — the P&L curve renderer bypasses the resolver -/

/-- C3: the renderer's inline leg pricing in `PnLChart.draw` does NOT
agree with the Leg Normalizer / Simulated Price Resolver.  At a
trial-mode leg with entered cost 0 and live quote 5 (strike 100,
`pos = 1`, simulated date day 0 = Thursday 1970-01-01, expiry day 4 =
Monday): the renderer's cost basis is `pos·100·cost = 0` while
`processLegData` resolves the effective cost to the live quote, giving
500; and the renderer's trading-day count is the calendar approximation
`round(4·252/365) = 3` while the Calendar-Service count of
`processLegData` is 2 (Thu, Fri), so the renderer also prices with a
different `T`.  This contradicts the repo's own DEV_HANDOVER.md §1
("chart.js now strictly relies on calling these two functions"). -/
theorem chart_diverges_from_resolver :
    (chartProcessLeg ⟨.call, 100, 1, 4, 0.2, 0, some 5⟩ 0 0).costBasis = 0 ∧
    (processLegData ⟨.call, 100, 1, 4, 0.2, 0, some 5⟩ 0 0 (some 0) (some 100)
      (some 0.03) .trial).costBasis = 500 ∧
    (chartProcessLeg ⟨.call, 100, 1, 4, 0.2, 0, some 5⟩ 0 0).simTradDTE = 3 ∧
    (processLegData ⟨.call, 100, 1, 4, 0.2, 0, some 5⟩ 0 0 (some 0) (some 100)
      (some 0.03) .trial).tradDTE = 2 := by
  refine ⟨?_, ?_, ?_, ?_⟩
  · simp [chartProcessLeg]
  · show (((1 * getMultiplier : ℤ) : ℝ)) *
        (if ViewMode.trial = ViewMode.trial ∨ (0:ℝ) = 0 then
          if quoteIsPositive (some 5) then (some (5:ℝ)).getD 0
          else
            match (some (0:ℤ)), (some (100:ℝ)), (some (0.03:ℝ)) with
            | some b, some u, some ir =>
              let baseTradDTE := calendarToTradingDays b 4
              let baseT : ℝ := (baseTradDTE : ℝ) / 252.0
              if baseT ≤ 0 then intrinsicValue .call u 100
              else calculateOptionPrice .call u 100 baseT ir 0.2
            | _, _, _ => (0:ℝ)
        else (0:ℝ)) = 500
    rw [if_pos (Or.inl rfl), if_pos (by show (0:ℝ) < 5; norm_num)]
    simp [getMultiplier]
    norm_num
  · show (max 0 ⌊((if ((4:ℤ) ≤ 0 : Bool) then (0:ℤ) else diffDays 0 4) : ℝ) * 252 / 365 + 1 / 2⌋) = 3
    norm_num [diffDays]
  · decide

end OptionSim
